import Mathlib

/-!
Verification of the writer subsystem of the iceberg-rust repository.

The repository fragment under review ships the contract surface
(`IcebergWriterBuilder`, `IcebergWriter`, `CurrentFileStatus` in
`crates/iceberg/src/writer/mod.rs`) together with its documentation and a
test helper (`check_parquet_data_file`).  The concrete writers (data file
writer, rolling policy, fan-out/partitioned writer, parquet encoder and the
statistics aggregation) are not part of the fragment, so following the
specification those components are modelled here from the spec's words; each
such definition carries a doc comment starting with `Modelled from the
spec:`.

Rows are modelled as lists of optional integers (a `none` cell is a null),
a record batch as a column count plus a list of rows, and the metadata
record (`DataFile`) with path, format, record count, partition value and
per-column statistics, as described in the spec's data model section.
-/

namespace IcebergRust

/-- A row of a record batch: one optional scalar per column; `none` is a null
cell. -/
abbrev Row : Type := List (Option Int)

/-- Modelled from the spec: "Record Batch (external input): an immutable
columnar chunk with a fixed schema".  The schema is reduced to its column
count; `rows` are the chunk's rows. -/
structure RecordBatch where
  ncols : Nat
  rows : List Row
deriving DecidableEq

/-- Modelled from the spec: the error taxonomy of section 7 (`SchemaMismatch`,
`PartitionRouteError`, `StorageUnavailable`, `AlreadyClosed`,
`InvalidConfiguration`). -/
inductive WError where
  | schemaMismatch
  | partitionRouteError
  | storageUnavailable
  | alreadyClosed
  | invalidConfiguration
deriving DecidableEq

/-- Physical file formats an iceberg data file may use. -/
inductive FileFormat where
  | parquet
  | avro
  | orc
deriving DecidableEq

/-- Per-column statistics carried by a File-Metadata Record: lower/upper
bound (absent when the file holds no non-null value for the column) and the
exact null count. -/
structure ColStats where
  lower : Option Int
  upper : Option Int
  nullCount : Nat
deriving DecidableEq

/-- Modelled from the spec: "File-Metadata Record (primary output unit)":
file path, file format, record count, partition value and per-column
bounds/null counts.  Paths are abstract identifiers (naturals). -/
structure DataFile where
  file_path : Nat
  file_format : FileFormat
  record_count : Nat
  partition : Option Int
  column_stats : List ColStats
deriving DecidableEq

/-- A finished physical file as the model tracks it: the metadata record
together with the rows actually persisted in that file (the ghost content
against which the metadata is checked). -/
structure ClosedFile where
  meta : DataFile
  content : List Row
deriving DecidableEq

/-! ## Statistics aggregation (merge monoid)

Modelled from the spec: "maintain running min/max/null-count accumulators
updated per batch ... this is a merge-monoid property (associative,
commutative combination of per-batch partial statistics)" and "bounds
comparison must use the column's natural total order and must correctly
merge `None` (absence is not a bound-widening value); null counts accumulate
additively". -/

/-- Statistics of a file with no rows: no bounds, zero nulls. -/
def emptyStats : ColStats := ⟨none, none, 0⟩

/-- Merge two optional bounds with `f` (`min` or `max`); absence is the
identity, never a bound-widening value. -/
def mergeOpt (f : Int → Int → Int) : Option Int → Option Int → Option Int
  | none, b => b
  | some a, none => some a
  | some a, some b => some (f a b)

/-- Merge two partial column statistics: pointwise `min`/`max` on the
bounds, additive null counts. -/
def mergeStats (s t : ColStats) : ColStats :=
  ⟨mergeOpt min s.lower t.lower, mergeOpt max s.upper t.upper,
    s.nullCount + t.nullCount⟩

/-- Statistics contributed by one cell: a null only bumps the null count, a
value is its own lower and upper bound. -/
def cellStats : Option Int → ColStats
  | none => ⟨none, none, 1⟩
  | some v => ⟨some v, some v, 0⟩

/-- Exact statistics of one column's cells, as the fold of the per-cell
partial statistics under the merge. -/
def colStatsOf (cells : List (Option Int)) : ColStats :=
  cells.foldr (fun c acc => mergeStats (cellStats c) acc) emptyStats

/-- Cells of column `j` across a list of rows (a too-short row contributes a
null; schema validation keeps rows long enough). -/
def colValues (rows : List Row) (j : Nat) : List (Option Int) :=
  rows.map (fun r => r.getD j none)

/-- Per-column statistics of a whole file, column by column. -/
def statsOfRows (ncols : Nat) (rows : List Row) : List ColStats :=
  (List.range ncols).map (fun j => colStatsOf (colValues rows j))

theorem mergeOpt_comm (f : Int → Int → Int)
    (hf : ∀ a b, f a b = f b a) (a b : Option Int) :
    mergeOpt f a b = mergeOpt f b a := by
  cases a <;> cases b <;> simp [mergeOpt, hf]

theorem mergeOpt_assoc (f : Int → Int → Int)
    (hf : ∀ a b c, f (f a b) c = f a (f b c)) (a b c : Option Int) :
    mergeOpt f (mergeOpt f a b) c = mergeOpt f a (mergeOpt f b c) := by
  cases a <;> cases b <;> cases c <;> simp [mergeOpt, hf]

theorem mergeStats_comm (s t : ColStats) :
    mergeStats s t = mergeStats t s := by
  unfold mergeStats
  rw [mergeOpt_comm min min_comm, mergeOpt_comm max max_comm,
    Nat.add_comm]

theorem mergeStats_assoc (s t u : ColStats) :
    mergeStats (mergeStats s t) u = mergeStats s (mergeStats t u) := by
  unfold mergeStats
  rw [mergeOpt_assoc min min_assoc, mergeOpt_assoc max max_assoc,
    Nat.add_assoc]

theorem mergeStats_left_comm (s t u : ColStats) :
    mergeStats s (mergeStats t u) = mergeStats t (mergeStats s u) := by
  rw [← mergeStats_assoc, mergeStats_comm s t, mergeStats_assoc]

/-- Folding the merge over a list of partial statistics is invariant under
permutation of the list. -/
theorem foldr_mergeStats_perm (e : ColStats) (l1 l2 : List ColStats)
    (p : l1.Perm l2) :
    l1.foldr mergeStats e = l2.foldr mergeStats e := by
  induction p with
  | nil => rfl
  | cons x _ ih => simp [List.foldr_cons, ih]
  | swap x y l => simp [List.foldr_cons, mergeStats_left_comm]
  | trans _ _ ih1 ih2 => rw [ih1, ih2]

/-! ### Exactness of the per-column statistics -/

theorem colStatsOf_nil : colStatsOf [] = emptyStats := rfl

theorem colStatsOf_cons (c : Option Int) (cs : List (Option Int)) :
    colStatsOf (c :: cs) = mergeStats (cellStats c) (colStatsOf cs) := rfl

/-- Every non-null value in the cells is bounded below by the reported lower
bound. -/
theorem colStatsOf_lower_le (cells : List (Option Int)) (v : Int)
    (hv : some v ∈ cells) :
    ∃ lo, (colStatsOf cells).lower = some lo ∧ lo ≤ v := by
  induction cells with
  | nil => cases hv
  | cons c cs ih =>
    rcases List.mem_cons.mp hv with hc | hcs
    · subst hc
      rcases h2 : (colStatsOf cs).lower with _ | lo2
      · exact ⟨v, by simp [colStatsOf_cons, cellStats, mergeStats, mergeOpt, h2], le_refl v⟩
      · exact ⟨min v lo2, by simp [colStatsOf_cons, cellStats, mergeStats, mergeOpt, h2],
          min_le_left _ _⟩
    · obtain ⟨lo, hlo, hle⟩ := ih hcs
      cases c with
      | none =>
        exact ⟨lo, by simp [colStatsOf_cons, cellStats, mergeStats, mergeOpt, hlo], hle⟩
      | some w =>
        exact ⟨min w lo, by simp [colStatsOf_cons, cellStats, mergeStats, mergeOpt, hlo],
          le_trans (min_le_right _ _) hle⟩

/-- Every non-null value in the cells is bounded above by the reported upper
bound. -/
theorem colStatsOf_le_upper (cells : List (Option Int)) (v : Int)
    (hv : some v ∈ cells) :
    ∃ hi, (colStatsOf cells).upper = some hi ∧ v ≤ hi := by
  induction cells with
  | nil => cases hv
  | cons c cs ih =>
    rcases List.mem_cons.mp hv with hc | hcs
    · subst hc
      rcases h2 : (colStatsOf cs).upper with _ | hi2
      · exact ⟨v, by simp [colStatsOf_cons, cellStats, mergeStats, mergeOpt, h2], le_refl v⟩
      · exact ⟨max v hi2, by simp [colStatsOf_cons, cellStats, mergeStats, mergeOpt, h2],
          le_max_left _ _⟩
    · obtain ⟨hi, hhi, hle⟩ := ih hcs
      cases c with
      | none =>
        exact ⟨hi, by simp [colStatsOf_cons, cellStats, mergeStats, mergeOpt, hhi], hle⟩
      | some w =>
        exact ⟨max w hi, by simp [colStatsOf_cons, cellStats, mergeStats, mergeOpt, hhi],
          le_trans hle (le_max_right _ _)⟩

/-- The reported lower bound, when present, is attained by a written value:
it is itself one of the cells. -/
theorem colStatsOf_lower_mem (cells : List (Option Int)) (lo : Int)
    (h : (colStatsOf cells).lower = some lo) : some lo ∈ cells := by
  induction cells with
  | nil => simp [colStatsOf_nil, emptyStats] at h
  | cons c cs ih =>
    rw [colStatsOf_cons] at h
    cases c with
    | none =>
      simp only [cellStats, mergeStats, mergeOpt] at h
      exact List.mem_cons_of_mem _ (ih h)
    | some w =>
      rcases h2 : (colStatsOf cs).lower with _ | lo2
      · simp only [cellStats, mergeStats, h2, mergeOpt] at h
        exact List.mem_cons.mpr (Or.inl (by rw [h.symm]))
      · simp only [cellStats, mergeStats, h2, mergeOpt] at h
        rcases min_cases w lo2 with ⟨hmin, _⟩ | ⟨hmin, _⟩
        · exact List.mem_cons.mpr (Or.inl (by rw [← h, hmin]))
        · exact List.mem_cons_of_mem _ (ih (by rw [h2, ← h, hmin]))

/-- The reported upper bound, when present, is attained by a written value:
it is itself one of the cells. -/
theorem colStatsOf_upper_mem (cells : List (Option Int)) (hi : Int)
    (h : (colStatsOf cells).upper = some hi) : some hi ∈ cells := by
  induction cells with
  | nil => simp [colStatsOf_nil, emptyStats] at h
  | cons c cs ih =>
    rw [colStatsOf_cons] at h
    cases c with
    | none =>
      simp only [cellStats, mergeStats, mergeOpt] at h
      exact List.mem_cons_of_mem _ (ih h)
    | some w =>
      rcases h2 : (colStatsOf cs).upper with _ | hi2
      · simp only [cellStats, mergeStats, h2, mergeOpt] at h
        exact List.mem_cons.mpr (Or.inl (by rw [h.symm]))
      · simp only [cellStats, mergeStats, h2, mergeOpt] at h
        rcases max_cases w hi2 with ⟨hmax, _⟩ | ⟨hmax, _⟩
        · exact List.mem_cons.mpr (Or.inl (by rw [← h, hmax]))
        · exact List.mem_cons_of_mem _ (ih (by rw [h2, ← h, hmax]))

/-- The reported null count is exactly the number of null cells. -/
theorem colStatsOf_nullCount (cells : List (Option Int)) :
    (colStatsOf cells).nullCount = cells.count none := by
  induction cells with
  | nil => rfl
  | cons c cs ih =>
    rw [colStatsOf_cons]
    cases c with
    | none => simp [cellStats, mergeStats, ih, List.count_cons, Nat.add_comm]
    | some w => simp [cellStats, mergeStats, ih, List.count_cons]

/-! ## Physical encoding

Modelled from the spec: the physical encoding codec internals are out of
scope ("this spec does not define a specific physical file encoding"), but
the round-trip property needs a concrete injective encoder/decoder pair, so
the parquet codec is modelled as a token stream: a header with the column
count and row count followed by the rows, each cell tagged null/value. -/

/-- Zigzag encoding of an integer as a natural token. -/
def encodeInt (v : Int) : Nat :=
  if 0 ≤ v then 2 * v.toNat else 2 * (-v).toNat - 1

/-- Inverse of the zigzag encoding. -/
def decodeInt (n : Nat) : Int :=
  if n % 2 = 0 then ((n / 2 : Nat) : Int) else -(((n + 1) / 2 : Nat) : Int)

/-- One cell as tokens: tag 0 for a null, tag 1 followed by the value. -/
def encodeCell : Option Int → List Nat
  | none => [0]
  | some v => [1, encodeInt v]

/-- One row as the concatenation of its cells. -/
def encodeRow (r : Row) : List Nat := (r.map encodeCell).flatten

/-- A whole file: column count, row count, then the rows. -/
def encodeFile (ncols : Nat) (rows : List Row) : List Nat :=
  ncols :: rows.length :: (rows.map encodeRow).flatten

/-- Decode one cell from the front of a token stream. -/
def decodeCell : List Nat → Option (Option Int × List Nat)
  | 0 :: rest => some (none, rest)
  | 1 :: n :: rest => some (some (decodeInt n), rest)
  | _ => none

/-- Decode `n` cells as one row. -/
def decodeRow : Nat → List Nat → Option (Row × List Nat)
  | 0, ts => some ([], ts)
  | n + 1, ts => do
      let (c, ts1) ← decodeCell ts
      let (r, ts2) ← decodeRow n ts1
      pure (c :: r, ts2)

/-- Decode `m` rows of `ncols` cells each. -/
def decodeRows (ncols : Nat) : Nat → List Nat → Option (List Row × List Nat)
  | 0, ts => some ([], ts)
  | m + 1, ts => do
      let (r, ts1) ← decodeRow ncols ts
      let (rs, ts2) ← decodeRows ncols m ts1
      pure (r :: rs, ts2)

/-- Decode a whole file; fails unless the stream is consumed exactly. -/
def decodeFile : List Nat → Option (Nat × List Row)
  | ncols :: nrows :: ts => do
      let (rs, rest) ← decodeRows ncols nrows ts
      if rest.isEmpty then pure (ncols, rs) else none
  | _ => none

theorem decodeInt_encodeInt (v : Int) : decodeInt (encodeInt v) = v := by
  unfold encodeInt decodeInt
  by_cases h : 0 ≤ v
  · simp only [h, if_true]
    have h2 : 2 * v.toNat % 2 = 0 := Nat.mul_mod_right 2 _
    rw [if_pos h2, Nat.mul_div_cancel_left _ (by norm_num)]
    exact Int.toNat_of_nonneg h
  · simp only [h, if_false]
    push_neg at h
    have hv : 1 ≤ (-v).toNat := by omega
    have hodd : (2 * (-v).toNat - 1) % 2 = 1 := by omega
    rw [if_neg (by omega)]
    have hdiv : (2 * (-v).toNat - 1 + 1) / 2 = (-v).toNat := by omega
    rw [hdiv]
    have : ((-v).toNat : Int) = -v := Int.toNat_of_nonneg (by omega)
    omega

theorem decodeCell_encodeCell (c : Option Int) (ts : List Nat) :
    decodeCell (encodeCell c ++ ts) = some (c, ts) := by
  cases c with
  | none => rfl
  | some v => simp [encodeCell, decodeCell, decodeInt_encodeInt]

theorem decodeRow_encodeRow (r : Row) (ts : List Nat) :
    decodeRow r.length (encodeRow r ++ ts) = some (r, ts) := by
  induction r with
  | nil => rfl
  | cons c cs ih =>
    simp only [List.length_cons, encodeRow, List.map_cons, List.flatten_cons,
      List.append_assoc]
    rw [decodeRow]
    rw [decodeCell_encodeCell c ((cs.map encodeCell).flatten ++ ts)]
    simp only [Option.bind_eq_bind, Option.some_bind]
    rw [show (cs.map encodeCell).flatten = encodeRow cs from rfl, ih]
    rfl

theorem decodeRows_encode (ncols : Nat) (rows : List Row) (ts : List Nat)
    (hw : ∀ r ∈ rows, r.length = ncols) :
    decodeRows ncols rows.length ((rows.map encodeRow).flatten ++ ts) =
      some (rows, ts) := by
  induction rows with
  | nil => rfl
  | cons r rs ih =>
    simp only [List.length_cons, List.map_cons, List.flatten_cons,
      List.append_assoc]
    rw [decodeRows]
    have hr : r.length = ncols := hw r (List.mem_cons_self r rs)
    have hdr : decodeRow ncols (encodeRow r ++ ((rs.map encodeRow).flatten ++ ts)) =
        some (r, (rs.map encodeRow).flatten ++ ts) := by
      rw [← hr]
      exact decodeRow_encodeRow r _
    rw [hdr]
    simp only [Option.bind_eq_bind, Option.some_bind]
    rw [ih (fun x hx => hw x (List.mem_cons_of_mem _ hx))]
    rfl

/-- Round trip at the codec level: decoding an encoded file reproduces the
column count and the rows exactly. -/
theorem decodeFile_encodeFile (ncols : Nat) (rows : List Row)
    (hw : ∀ r ∈ rows, r.length = ncols) :
    decodeFile (encodeFile ncols rows) = some (ncols, rows) := by
  have h := decodeRows_encode ncols rows [] hw
  rw [List.append_nil] at h
  show decodeFile (ncols :: rows.length :: (rows.map encodeRow).flatten) = _
  rw [decodeFile, h]
  rfl

/-! ## The data file writer

Modelled from the spec: the unpartitioned Logical (Iceberg) data-file
writer of sections 4.2/4.3 — "a caller obtains a Logical Writer from its
builder, repeatedly feeds batches via the write operation, then calls close
exactly once to obtain the finished file-metadata list", with the optional
row-count roll policy ("if the currently open writer for that key exceeds a
configured row or byte threshold (via Current-File-Status), close it first
(emitting a File-Metadata Record) and open a new one before writing"), the
schema validation of `write(batch)` ("must validate the batch's schema is
compatible ... fails with `SchemaMismatch` otherwise") and the exactly-once
close contract ("after `close()` returns — success or failure — the writer
must never be used again", failing with `AlreadyClosed`).  The storage
collaborator is a path-to-bytes association written at each physical
close. -/
structure DataFileWriter where
  ncols : Nat
  threshold : Option Nat
  closed : Bool
  cur : List Row
  files : List ClosedFile
  nextPath : Nat
  storage : List (Nat × List Nat)
deriving DecidableEq

/-- Build a fresh writer from the builder configuration (schema column
count and optional row-count roll threshold). -/
def DataFileWriter.build (ncols : Nat) (threshold : Option Nat) :
    DataFileWriter :=
  ⟨ncols, threshold, false, [], [], 0, []⟩

/-- Close the currently open physical file: emit its File-Metadata Record
(exact record count and per-column statistics), persist its encoded bytes at
a fresh path, and open a new empty physical file. -/
def rollFile (w : DataFileWriter) : DataFileWriter :=
  { w with
    cur := []
    files := w.files ++
      [⟨⟨w.nextPath, FileFormat.parquet, w.cur.length, none,
          statsOfRows w.ncols w.cur⟩, w.cur⟩]
    nextPath := w.nextPath + 1
    storage := w.storage ++ [(w.nextPath, encodeFile w.ncols w.cur)] }

/-- Roll policy check via Current-File-Status: the open file has reached the
configured row threshold. -/
def shouldRoll (w : DataFileWriter) : Bool :=
  match w.threshold with
  | none => false
  | some n => decide (n ≤ w.cur.length)

/-- Deliver one row: roll first when the open file has reached the
threshold, then append the row to the open physical file. -/
def writeRow (w : DataFileWriter) (r : Row) : DataFileWriter :=
  let w1 := if shouldRoll w then rollFile w else w
  { w1 with cur := w1.cur ++ [r] }

/-- Schema compatibility of an incoming batch with the configured schema:
same column count, every row the full width. -/
def validBatch (ncols : Nat) (b : RecordBatch) : Bool :=
  b.ncols == ncols && b.rows.all (fun r => r.length == ncols)

/-- Write one record batch: fails with `AlreadyClosed` after close and with
`SchemaMismatch` on an incompatible batch, otherwise delivers the rows in
order. -/
def DataFileWriter.write (w : DataFileWriter) (b : RecordBatch) :
    Except WError DataFileWriter :=
  if w.closed then .error .alreadyClosed
  else if validBatch w.ncols b then .ok (b.rows.foldl writeRow w)
  else .error .schemaMismatch

/-- Close the writer: fails with `AlreadyClosed` on a second close;
otherwise finalizes the open physical file and returns every File-Metadata
Record this writer produced (roll-emitted ones included).  The `fault` flag
injects a storage failure during the final flush; even then the writer ends
closed. -/
def DataFileWriter.close (w : DataFileWriter) (fault : Bool) :
    Except WError (List DataFile) × DataFileWriter :=
  if w.closed then (.error .alreadyClosed, w)
  else
    let w2 := { rollFile w with closed := true }
    if fault then (.error .storageUnavailable, w2)
    else (.ok (w2.files.map (·.meta)), w2)

/-- Write a sequence of batches in order, stopping at the first failure. -/
def writeAll (w : DataFileWriter) : List RecordBatch →
    Except WError DataFileWriter
  | [] => .ok w
  | b :: bs =>
    match w.write b with
    | .ok w1 => writeAll w1 bs
    | .error e => .error e

/-- Rows accounted for by the writer: already emitted records plus the open
file. -/
def totalRows (w : DataFileWriter) : Nat :=
  (w.files.map (·.meta.record_count)).sum + w.cur.length

theorem totalRows_rollFile (w : DataFileWriter) :
    totalRows (rollFile w) = totalRows w := by
  simp [totalRows, rollFile, List.map_append, List.sum_append]

theorem totalRows_writeRow (w : DataFileWriter) (r : Row) :
    totalRows (writeRow w r) = totalRows w + 1 := by
  unfold writeRow
  by_cases h : shouldRoll w = true
  · simp only [h, if_true]
    have := totalRows_rollFile w
    simp only [totalRows] at this ⊢
    simp [List.length_append, Nat.add_assoc] at this ⊢
    omega
  · simp only [eq_false_of_ne_true h, if_false]
    simp [totalRows, List.length_append, Nat.add_assoc]

theorem totalRows_foldl (rows : List Row) (w : DataFileWriter) :
    totalRows (rows.foldl writeRow w) = totalRows w + rows.length := by
  induction rows generalizing w with
  | nil => simp
  | cons r rs ih =>
    simp only [List.foldl_cons, List.length_cons]
    rw [ih, totalRows_writeRow]
    omega

theorem totalRows_write (w w1 : DataFileWriter) (b : RecordBatch)
    (h : w.write b = .ok w1) :
    totalRows w1 = totalRows w + b.rows.length := by
  unfold DataFileWriter.write at h
  by_cases hc : w.closed = true
  · rw [if_pos hc] at h; cases h
  · rw [if_neg hc] at h
    by_cases hv : validBatch w.ncols b = true
    · rw [if_pos hv] at h
      cases h
      rw [totalRows_foldl]
    · rw [if_neg hv] at h; cases h

theorem totalRows_writeAll (bs : List RecordBatch) (w w1 : DataFileWriter)
    (h : writeAll w bs = .ok w1) :
    totalRows w1 = totalRows w + (bs.map (fun b => b.rows.length)).sum := by
  induction bs generalizing w with
  | nil =>
    simp only [writeAll, Except.ok.injEq] at h
    simp [← h]
  | cons b bs ih =>
    simp only [writeAll] at h
    cases hw : w.write b with
    | ok w2 =>
      rw [hw] at h
      rw [ih w2 h, totalRows_write w w2 b hw]
      simp [List.map_cons, List.sum_cons]
      omega
    | error e => rw [hw] at h; cases h

theorem close_records (w w1 : DataFileWriter) (recs : List DataFile)
    (h : w.close false = (.ok recs, w1)) :
    w.closed = false ∧
    w1 = { rollFile w with closed := true } ∧
    recs = (rollFile w).files.map (·.meta) := by
  unfold DataFileWriter.close at h
  by_cases hc : w.closed = true
  · rw [if_pos hc] at h
    simp at h
  · rw [if_neg hc] at h
    simp only [Prod.mk.injEq, Except.ok.injEq, if_neg] at h
    simp at h
    exact ⟨eq_false_of_ne_true hc, h.2.symm, h.1.symm⟩

theorem sum_close_records (w w1 : DataFileWriter) (recs : List DataFile)
    (h : w.close false = (.ok recs, w1)) :
    (recs.map (·.record_count)).sum = totalRows w := by
  obtain ⟨_, _, hrecs⟩ := close_records w w1 recs h
  subst hrecs
  simp [rollFile, totalRows, List.map_append, List.sum_append,
    Function.comp_def]

/-! ### Structural invariant of the data file writer -/

/-- A finished file is well-formed: its metadata reports the exact row
count and the exact per-column statistics of its persisted rows, and the
parquet format. -/
def GoodFile (ncols : Nat) (cf : ClosedFile) : Prop :=
  cf.meta.record_count = cf.content.length ∧
  cf.meta.column_stats = statsOfRows ncols cf.content ∧
  cf.meta.file_format = FileFormat.parquet

/-- Writer invariant: every finished file is well-formed, the storage holds
exactly the encoded bytes of each finished file at its path, and paths are
the distinct identifiers `0, 1, ...` in emission order. -/
def Inv (w : DataFileWriter) : Prop :=
  (∀ cf ∈ w.files, GoodFile w.ncols cf) ∧
  w.storage =
    w.files.map (fun cf => (cf.meta.file_path, encodeFile w.ncols cf.content)) ∧
  w.files.map (fun cf => cf.meta.file_path) = List.range w.files.length ∧
  w.nextPath = w.files.length

theorem inv_build (c : Nat) (t : Option Nat) : Inv (DataFileWriter.build c t) := by
  refine ⟨?_, rfl, rfl, rfl⟩
  intro cf hcf
  cases hcf

theorem inv_rollFile (w : DataFileWriter) (h : Inv w) : Inv (rollFile w) := by
  obtain ⟨hg, hs, hp, hn⟩ := h
  refine ⟨?_, ?_, ?_, ?_⟩
  · intro cf hcf
    rcases List.mem_append.mp hcf with hold | hnew
    · exact hg cf hold
    · rcases List.mem_singleton.mp hnew with rfl
      exact ⟨rfl, rfl, rfl⟩
  · simp only [rollFile, List.map_append, List.map_cons, List.map_nil]
    rw [hs]
  · simp only [rollFile, List.map_append, List.map_cons, List.map_nil,
      List.length_append, List.length_cons, List.length_nil]
    rw [hp, hn, List.range_succ]
  · simp only [rollFile, List.length_append, List.length_cons, List.length_nil]
    rw [hn]

theorem rollFile_config (w : DataFileWriter) :
    (rollFile w).ncols = w.ncols ∧ (rollFile w).threshold = w.threshold ∧
    (rollFile w).closed = w.closed := ⟨rfl, rfl, rfl⟩

theorem writeRow_config (w : DataFileWriter) (r : Row) :
    (writeRow w r).ncols = w.ncols ∧ (writeRow w r).threshold = w.threshold ∧
    (writeRow w r).closed = w.closed := by
  unfold writeRow
  by_cases hr : shouldRoll w = true
  · simp [hr, rollFile]
  · simp [eq_false_of_ne_true hr]

theorem inv_writeRow (w : DataFileWriter) (r : Row) (h : Inv w) :
    Inv (writeRow w r) := by
  unfold writeRow
  by_cases hr : shouldRoll w = true
  · simp only [hr, if_true]
    obtain ⟨hg, hs, hp, hn⟩ := inv_rollFile w h
    exact ⟨hg, hs, hp, hn⟩
  · simp only [eq_false_of_ne_true hr, if_false]
    obtain ⟨hg, hs, hp, hn⟩ := h
    exact ⟨hg, hs, hp, hn⟩

theorem inv_foldl (rows : List Row) (w : DataFileWriter) (h : Inv w) :
    Inv (rows.foldl writeRow w) := by
  induction rows generalizing w with
  | nil => exact h
  | cons r rs ih => exact ih (writeRow w r) (inv_writeRow w r h)

theorem foldl_config (rows : List Row) (w : DataFileWriter) :
    (rows.foldl writeRow w).ncols = w.ncols ∧
    (rows.foldl writeRow w).threshold = w.threshold ∧
    (rows.foldl writeRow w).closed = w.closed := by
  induction rows generalizing w with
  | nil => exact ⟨rfl, rfl, rfl⟩
  | cons r rs ih =>
    obtain ⟨h1, h2, h3⟩ := ih (writeRow w r)
    obtain ⟨g1, g2, g3⟩ := writeRow_config w r
    exact ⟨h1.trans g1, h2.trans g2, h3.trans g3⟩

theorem write_ok_elim (w w1 : DataFileWriter) (b : RecordBatch)
    (h : w.write b = .ok w1) :
    w.closed = false ∧ validBatch w.ncols b = true ∧
    w1 = b.rows.foldl writeRow w := by
  unfold DataFileWriter.write at h
  by_cases hc : w.closed = true
  · rw [if_pos hc] at h; cases h
  · rw [if_neg hc] at h
    by_cases hv : validBatch w.ncols b = true
    · rw [if_pos hv] at h
      cases h
      exact ⟨eq_false_of_ne_true hc, hv, rfl⟩
    · rw [if_neg hv] at h; cases h

theorem inv_write (w w1 : DataFileWriter) (b : RecordBatch)
    (h : Inv w) (hw : w.write b = .ok w1) : Inv w1 := by
  obtain ⟨_, _, rfl⟩ := write_ok_elim w w1 b hw
  exact inv_foldl b.rows w h

theorem write_config (w w1 : DataFileWriter) (b : RecordBatch)
    (hw : w.write b = .ok w1) :
    w1.ncols = w.ncols ∧ w1.threshold = w.threshold ∧ w1.closed = w.closed := by
  obtain ⟨_, _, rfl⟩ := write_ok_elim w w1 b hw
  exact foldl_config b.rows w

theorem inv_writeAll (bs : List RecordBatch) (w w1 : DataFileWriter)
    (h : Inv w) (hw : writeAll w bs = .ok w1) : Inv w1 := by
  induction bs generalizing w with
  | nil =>
    simp only [writeAll, Except.ok.injEq] at hw
    rw [← hw]; exact h
  | cons b bs ih =>
    simp only [writeAll] at hw
    cases hb : w.write b with
    | ok w2 =>
      rw [hb] at hw
      exact ih w2 (inv_write w w2 b h hb) hw
    | error e => rw [hb] at hw; cases hw

theorem writeAll_config (bs : List RecordBatch) (w w1 : DataFileWriter)
    (hw : writeAll w bs = .ok w1) :
    w1.ncols = w.ncols ∧ w1.threshold = w.threshold ∧ w1.closed = w.closed := by
  induction bs generalizing w with
  | nil =>
    simp only [writeAll, Except.ok.injEq] at hw
    rw [← hw]; exact ⟨rfl, rfl, rfl⟩
  | cons b bs ih =>
    simp only [writeAll] at hw
    cases hb : w.write b with
    | ok w2 =>
      rw [hb] at hw
      obtain ⟨h1, h2, h3⟩ := ih w2 hw
      obtain ⟨g1, g2, g3⟩ := write_config w w2 b hb
      exact ⟨h1.trans g1, h2.trans g2, h3.trans g3⟩
    | error e => rw [hb] at hw; cases hw

theorem inv_close (w w1 : DataFileWriter) (recs : List DataFile)
    (h : Inv w) (hc : w.close false = (.ok recs, w1)) : Inv w1 := by
  obtain ⟨_, rfl, _⟩ := close_records w w1 recs hc
  obtain ⟨hg, hs, hp, hn⟩ := inv_rollFile w h
  exact ⟨hg, hs, hp, hn⟩

/-! ### Row bound under the roll policy -/

/-- With a roll threshold of `n`, every emitted record and the open file
hold at most `n` rows. -/
def RollInv (n : Nat) (w : DataFileWriter) : Prop :=
  (∀ cf ∈ w.files, cf.meta.record_count ≤ n) ∧ w.cur.length ≤ n

theorem rollInv_build (c : Nat) (t : Option Nat) (n : Nat) :
    RollInv n (DataFileWriter.build c t) := by
  constructor
  · intro cf hcf; cases hcf
  · exact Nat.zero_le n

theorem rollInv_writeRow (n : Nat) (w : DataFileWriter) (r : Row)
    (ht : w.threshold = some n) (hn : 1 ≤ n) (h : RollInv n w) :
    RollInv n (writeRow w r) := by
  unfold writeRow
  by_cases hr : shouldRoll w = true
  · simp only [hr, if_true]
    constructor
    · intro cf hcf
      rcases List.mem_append.mp hcf with hold | hnew
      · exact h.1 cf hold
      · rcases List.mem_singleton.mp hnew with rfl
        exact h.2
    · simpa [rollFile] using hn
  · rw [if_neg hr]
    refine ⟨h.1, ?_⟩
    unfold shouldRoll at hr
    rw [ht] at hr
    simp only [decide_eq_true_eq] at hr
    have : w.cur.length < n := Nat.lt_of_not_le hr
    simp only [List.length_append, List.length_cons, List.length_nil]
    omega

theorem rollInv_foldl (n : Nat) (rows : List Row) (w : DataFileWriter)
    (ht : w.threshold = some n) (hn : 1 ≤ n) (h : RollInv n w) :
    RollInv n (rows.foldl writeRow w) := by
  induction rows generalizing w with
  | nil => exact h
  | cons r rs ih =>
    refine ih (writeRow w r) ?_ (rollInv_writeRow n w r ht hn h)
    rw [(writeRow_config w r).2.1, ht]

theorem rollInv_write (n : Nat) (w w1 : DataFileWriter) (b : RecordBatch)
    (ht : w.threshold = some n) (hn : 1 ≤ n) (h : RollInv n w)
    (hw : w.write b = .ok w1) : RollInv n w1 := by
  obtain ⟨_, _, rfl⟩ := write_ok_elim w w1 b hw
  exact rollInv_foldl n b.rows w ht hn h

/-- At close, every returned record keeps the threshold bound. -/
theorem close_counts_le (n : Nat) (w w1 : DataFileWriter)
    (recs : List DataFile) (h : RollInv n w)
    (hc : w.close false = (.ok recs, w1)) :
    ∀ rec ∈ recs, rec.record_count ≤ n := by
  obtain ⟨_, _, hrecs⟩ := close_records w w1 recs hc
  subst hrecs
  intro rec hrec
  rcases List.mem_map.mp hrec with ⟨cf, hcf, rfl⟩
  rcases List.mem_append.mp hcf with hold | hnew
  · exact h.1 cf hold
  · rcases List.mem_singleton.mp hnew with rfl
    exact h.2

/-! ## The Physical File Writer

Modelled from the spec: the Physical File Writer of section 4.2 — it
"encodes a sequence of record batches into one physical file of a given
format", validates each batch's schema (`SchemaMismatch` otherwise), and on
close "flushes remaining buffered data, finalizes the physical file" and
returns the low-level facts.  Close here returns the finalized encoded
bytes together with the row count. -/
structure ParquetFileWriter where
  ncols : Nat
  rows : List Row
  closed : Bool
deriving DecidableEq

/-- Open a fresh physical file writer for a schema of `ncols` columns. -/
def ParquetFileWriter.build (ncols : Nat) : ParquetFileWriter :=
  ⟨ncols, [], false⟩

/-- Append one batch to the open physical file after schema validation. -/
def ParquetFileWriter.write (w : ParquetFileWriter) (b : RecordBatch) :
    Except WError ParquetFileWriter :=
  if w.closed then .error .alreadyClosed
  else if validBatch w.ncols b then .ok { w with rows := w.rows ++ b.rows }
  else .error .schemaMismatch

/-- Finalize the physical file: the encoded bytes and the row count. -/
def ParquetFileWriter.close (w : ParquetFileWriter) :
    Except WError (List Nat × Nat) :=
  if w.closed then .error .alreadyClosed
  else .ok (encodeFile w.ncols w.rows, w.rows.length)

/-- Write a sequence of batches into the one physical file. -/
def pWriteAll (w : ParquetFileWriter) : List RecordBatch →
    Except WError ParquetFileWriter
  | [] => .ok w
  | b :: bs =>
    match w.write b with
    | .ok w1 => pWriteAll w1 bs
    | .error e => .error e

theorem validBatch_rows (c : Nat) (b : RecordBatch)
    (h : validBatch c b = true) : ∀ r ∈ b.rows, r.length = c := by
  unfold validBatch at h
  rcases Bool.and_eq_true_iff.mp h with ⟨_, hall⟩
  intro r hr
  have := List.all_eq_true.mp hall r hr
  exact beq_iff_eq.mp this

theorem pwrite_ok_elim (w w1 : ParquetFileWriter) (b : RecordBatch)
    (h : w.write b = .ok w1) :
    w.closed = false ∧ validBatch w.ncols b = true ∧
    w1 = { w with rows := w.rows ++ b.rows } := by
  unfold ParquetFileWriter.write at h
  by_cases hc : w.closed = true
  · rw [if_pos hc] at h; cases h
  · rw [if_neg hc] at h
    by_cases hv : validBatch w.ncols b = true
    · rw [if_pos hv] at h
      cases h
      exact ⟨eq_false_of_ne_true hc, hv, rfl⟩
    · rw [if_neg hv] at h; cases h

theorem pWriteAll_ok (bs : List RecordBatch) (w w1 : ParquetFileWriter)
    (h : pWriteAll w bs = .ok w1) :
    w1.ncols = w.ncols ∧ w1.closed = w.closed ∧
    w1.rows = w.rows ++ (bs.map (fun b => b.rows)).flatten ∧
    ∀ b ∈ bs, validBatch w.ncols b = true := by
  induction bs generalizing w with
  | nil =>
    simp only [pWriteAll, Except.ok.injEq] at h
    refine ⟨by rw [← h], by rw [← h], by rw [← h]; simp, ?_⟩
    intro b hb; cases hb
  | cons b bs ih =>
    simp only [pWriteAll] at h
    cases hb : w.write b with
    | ok w2 =>
      rw [hb] at h
      obtain ⟨hcl, hv, rfl⟩ := pwrite_ok_elim w w2 b hb
      obtain ⟨i1, i2, i3, i4⟩ := ih _ h
      refine ⟨i1, i2, ?_, ?_⟩
      · rw [i3]; simp [List.append_assoc]
      · intro b2 hb2
        rcases List.mem_cons.mp hb2 with rfl | hmem
        · exact hv
        · exact i4 b2 hmem
    | error e => rw [hb] at h; cases h

/-! ### Row widths and storage lookup -/

/-- Every row persisted or buffered by the data file writer has the
configured column count (guaranteed by schema validation at `write`). -/
def ContentInv (w : DataFileWriter) : Prop :=
  (∀ cf ∈ w.files, ∀ r ∈ cf.content, r.length = w.ncols) ∧
  (∀ r ∈ w.cur, r.length = w.ncols)

theorem contentInv_build (c : Nat) (t : Option Nat) :
    ContentInv (DataFileWriter.build c t) := by
  constructor
  · intro cf hcf; cases hcf
  · intro r hr; cases hr

theorem contentInv_rollFile (w : DataFileWriter) (h : ContentInv w) :
    ContentInv (rollFile w) := by
  constructor
  · intro cf hcf
    rcases List.mem_append.mp hcf with hold | hnew
    · exact h.1 cf hold
    · rcases List.mem_singleton.mp hnew with rfl
      exact h.2
  · intro r hr; cases hr

theorem contentInv_writeRow (w : DataFileWriter) (r : Row)
    (hr : r.length = w.ncols) (h : ContentInv w) :
    ContentInv (writeRow w r) := by
  unfold writeRow
  by_cases hb : shouldRoll w = true
  · rw [if_pos hb]
    have h2 := contentInv_rollFile w h
    constructor
    · exact h2.1
    · intro r2 hr2
      rcases List.mem_append.mp hr2 with hold | hnew
      · exact h2.2 r2 hold
      · rcases List.mem_singleton.mp hnew with rfl
        exact hr
  · rw [if_neg hb]
    constructor
    · exact h.1
    · intro r2 hr2
      rcases List.mem_append.mp hr2 with hold | hnew
      · exact h.2 r2 hold
      · rcases List.mem_singleton.mp hnew with rfl
        exact hr

theorem contentInv_foldl (rows : List Row) (w : DataFileWriter)
    (hrows : ∀ r ∈ rows, r.length = w.ncols) (h : ContentInv w) :
    ContentInv (rows.foldl writeRow w) := by
  induction rows generalizing w with
  | nil => exact h
  | cons r rs ih =>
    have hr : r.length = w.ncols := hrows r (List.mem_cons_self r rs)
    refine ih (writeRow w r) ?_ (contentInv_writeRow w r hr h)
    intro r2 hr2
    rw [(writeRow_config w r).1]
    exact hrows r2 (List.mem_cons_of_mem _ hr2)

theorem contentInv_write (w w1 : DataFileWriter) (b : RecordBatch)
    (h : ContentInv w) (hw : w.write b = .ok w1) : ContentInv w1 := by
  obtain ⟨_, hv, rfl⟩ := write_ok_elim w w1 b hw
  exact contentInv_foldl b.rows w (validBatch_rows w.ncols b hv) h

theorem contentInv_writeAll (bs : List RecordBatch) (w w1 : DataFileWriter)
    (h : ContentInv w) (hw : writeAll w bs = .ok w1) : ContentInv w1 := by
  induction bs generalizing w with
  | nil =>
    simp only [writeAll, Except.ok.injEq] at hw
    rw [← hw]; exact h
  | cons b bs ih =>
    simp only [writeAll] at hw
    cases hb : w.write b with
    | ok w2 =>
      rw [hb] at hw
      exact ih w2 (contentInv_write w w2 b h hb) hw
    | error e => rw [hb] at hw; cases hw

/-- Read back the bytes stored at a path: first matching storage entry. -/
def lookupStorage (s : List (Nat × List Nat)) (p : Nat) : Option (List Nat) :=
  (s.find? (fun q => q.1 == p)).map (fun q => q.2)

theorem find_mirror (g : ClosedFile → List Nat) (l : List ClosedFile)
    (hn : (l.map (fun cf => cf.meta.file_path)).Nodup)
    (cf : ClosedFile) (hcf : cf ∈ l) :
    (l.map (fun x => (x.meta.file_path, g x))).find?
        (fun q => q.1 == cf.meta.file_path) =
      some (cf.meta.file_path, g cf) := by
  induction l with
  | nil => cases hcf
  | cons x xs ih =>
    simp only [List.map_cons, List.nodup_cons] at hn
    rcases List.mem_cons.mp hcf with rfl | hmem
    · simp only [List.map_cons]
      rw [List.find?_cons_of_pos _ (by simp)]
    · by_cases hp : x.meta.file_path = cf.meta.file_path
      · exfalso
        apply hn.1
        rw [hp]
        exact List.mem_map.mpr ⟨cf, hmem, rfl⟩
      · simp only [List.map_cons]
        rw [List.find?_cons_of_neg _ (by simpa using hp)]
        exact ih hn.2 hmem

/-- Under the writer invariants, the storage at each record's path holds
exactly the encoded bytes of that file's rows. -/
theorem lookupStorage_of_inv (w : DataFileWriter) (h : Inv w)
    (cf : ClosedFile) (hcf : cf ∈ w.files) :
    lookupStorage w.storage cf.meta.file_path =
      some (encodeFile w.ncols cf.content) := by
  obtain ⟨_, hs, hp, _⟩ := h
  unfold lookupStorage
  rw [hs, find_mirror (fun x => encodeFile w.ncols x.content) w.files
    (by rw [hp]; exact List.nodup_range _) cf hcf]
  rfl

/-! ## The partitioned (fan-out) writer

Modelled from the spec: the partitioned Logical Writer of sections 3/4.3 —
"a mapping from a partition/route key ... to the currently-open Physical
Writer for that key", with "at most one open Physical Writer per route key
at any time"; `write` routes each row by its route key, opening a writer on
the key's first row, and `close` converts each open writer into a
File-Metadata Record with "partition value attached from the route key".
Input rows arrive pre-routed as (route key, row) pairs. -/
structure FanoutWriter where
  ncols : Nat
  openRows : Int → List Row
  keys : List Int
  closed : Bool

/-- Build a fresh fan-out writer: no open physical writer for any key. -/
def FanoutWriter.build (ncols : Nat) : FanoutWriter :=
  ⟨ncols, fun _ => [], [], false⟩

/-- Route one row: open a physical writer for its key if none is open, then
append the row to that key's open writer. -/
def writeRowP (w : FanoutWriter) (p : Int × Row) : FanoutWriter :=
  { w with
    openRows := fun k =>
      if k = p.1 then w.openRows k ++ [p.2] else w.openRows k
    keys := if p.1 ∈ w.keys then w.keys else w.keys ++ [p.1] }

/-- Write one pre-routed batch of rows. -/
def FanoutWriter.write (w : FanoutWriter) (batch : List (Int × Row)) :
    Except WError FanoutWriter :=
  if w.closed then .error .alreadyClosed
  else .ok (batch.foldl writeRowP w)

/-- Write a sequence of pre-routed batches. -/
def fanWriteAll (w : FanoutWriter) : List (List (Int × Row)) →
    Except WError FanoutWriter
  | [] => .ok w
  | b :: bs =>
    match w.write b with
    | .ok w1 => fanWriteAll w1 bs
    | .error e => .error e

/-- Turn each open physical writer into its finished file, distinct paths in
key order, the partition value attached from the route key. -/
def closeFiles (f : Int → List Row) (ncols : Nat) :
    Nat → List Int → List ClosedFile
  | _, [] => []
  | i, k :: ks =>
    ⟨⟨i, FileFormat.parquet, (f k).length, some k, statsOfRows ncols (f k)⟩,
      f k⟩ :: closeFiles f ncols (i + 1) ks

/-- Close the fan-out writer: one File-Metadata Record per route key that
received at least one row. -/
def FanoutWriter.close (w : FanoutWriter) : Except WError (List ClosedFile) :=
  if w.closed then .error .alreadyClosed
  else .ok (closeFiles w.openRows w.ncols 0 w.keys)

/-- Run a whole partitioned session: write all batches, then close. -/
def fanRun (c : Nat) (bs : List (List (Int × Row))) :
    Except WError (List ClosedFile) :=
  (fanWriteAll (FanoutWriter.build c) bs).bind FanoutWriter.close

/-- Routing invariant relative to the rows consumed so far: each key's open
writer holds exactly the rows routed to that key, in order, and a key has an
open writer exactly when it received at least one row. -/
def FanInv (done : List (Int × Row)) (w : FanoutWriter) : Prop :=
  w.keys.Nodup ∧
  (∀ k, w.openRows k = (done.filter (fun p => p.1 == k)).map Prod.snd) ∧
  (∀ k, k ∈ w.keys ↔ ∃ r, (k, r) ∈ done)

theorem fanInv_build (c : Nat) : FanInv [] (FanoutWriter.build c) := by
  refine ⟨List.nodup_nil, fun k => rfl, fun k => ?_⟩
  simp [FanoutWriter.build]

theorem fanInv_step (done : List (Int × Row)) (w : FanoutWriter)
    (p : Int × Row) (h : FanInv done w) :
    FanInv (done ++ [p]) (writeRowP w p) := by
  obtain ⟨hnd, hrows, hmem⟩ := h
  refine ⟨?_, ?_, ?_⟩
  · simp only [writeRowP]
    by_cases hk : p.1 ∈ w.keys
    · rw [if_pos hk]; exact hnd
    · rw [if_neg hk]
      exact List.Nodup.append hnd (List.nodup_singleton p.1)
        (by simpa [List.disjoint_singleton] using hk)
  · intro k
    simp only [writeRowP, List.filter_append, List.map_append]
    by_cases hk : k = p.1
    · subst hk
      rw [if_pos rfl, hrows p.1]
      have hb : (p.1 == p.1) = true := beq_self_eq_true p.1
      simp [List.filter_cons, hb]
    · rw [if_neg hk, hrows k]
      have hb : (p.1 == k) = false := by
        rw [beq_eq_false_iff_ne]
        intro hc
        exact hk hc.symm
      simp [List.filter_cons, hb]
  · intro k
    simp only [writeRowP]
    by_cases hk : k = p.1
    · subst hk
      constructor
      · intro _
        exact ⟨p.2, List.mem_append.mpr (Or.inr (by simp))⟩
      · intro _
        by_cases hin : p.1 ∈ w.keys
        · rw [if_pos hin]; exact hin
        · rw [if_neg hin]
          exact List.mem_append.mpr (Or.inr (by simp))
    · have hkeys : (k ∈ if p.1 ∈ w.keys then w.keys else w.keys ++ [p.1]) ↔
          k ∈ w.keys := by
        by_cases hin : p.1 ∈ w.keys
        · rw [if_pos hin]
        · rw [if_neg hin]
          simp only [List.mem_append, List.mem_singleton]
          constructor
          · intro hor
            rcases hor with hl | hr
            · exact hl
            · exact absurd hr hk
          · intro hl; exact Or.inl hl
      rw [hkeys, hmem k]
      constructor
      · rintro ⟨r, hr⟩
        exact ⟨r, List.mem_append.mpr (Or.inl hr)⟩
      · rintro ⟨r, hr⟩
        rcases List.mem_append.mp hr with hl | hsing
        · exact ⟨r, hl⟩
        · rcases List.mem_singleton.mp hsing with heq
          exfalso
          apply hk
          have := congrArg Prod.fst heq
          simpa using this

theorem fanInv_foldl (todo done : List (Int × Row)) (w : FanoutWriter)
    (h : FanInv done w) :
    FanInv (done ++ todo) (todo.foldl writeRowP w) := by
  induction todo generalizing done w with
  | nil => simpa using h
  | cons p ps ih =>
    have step := fanInv_step done w p h
    have := ih (done ++ [p]) (writeRowP w p) step
    simpa [List.append_assoc] using this

theorem writeRowP_config (w : FanoutWriter) (p : Int × Row) :
    (writeRowP w p).ncols = w.ncols ∧ (writeRowP w p).closed = w.closed :=
  ⟨rfl, rfl⟩

theorem foldl_writeRowP_config (l : List (Int × Row)) (w : FanoutWriter) :
    (l.foldl writeRowP w).ncols = w.ncols ∧
    (l.foldl writeRowP w).closed = w.closed := by
  induction l generalizing w with
  | nil => exact ⟨rfl, rfl⟩
  | cons p ps ih => exact (ih (writeRowP w p))

theorem fanWriteAll_eq (bs : List (List (Int × Row))) (w : FanoutWriter)
    (h : w.closed = false) :
    fanWriteAll w bs = .ok (bs.flatten.foldl writeRowP w) := by
  induction bs generalizing w with
  | nil => rfl
  | cons b bs ih =>
    have hw : w.write b = .ok (b.foldl writeRowP w) := by
      unfold FanoutWriter.write
      rw [if_neg (by rw [h]; exact Bool.false_ne_true)]
    simp only [fanWriteAll, hw]
    rw [ih (b.foldl writeRowP w)
      (((foldl_writeRowP_config b w).2).trans h)]
    simp [List.flatten_cons, List.foldl_append]

theorem closeFiles_partition_map (f : Int → List Row) (n : Nat)
    (i : Nat) (ks : List Int) :
    (closeFiles f n i ks).map (fun cf => cf.meta.partition) = ks.map some := by
  induction ks generalizing i with
  | nil => rfl
  | cons k ks ih => simp [closeFiles, ih]

theorem mem_closeFiles (f : Int → List Row) (n : Nat) (i : Nat)
    (ks : List Int) (rec : ClosedFile) (h : rec ∈ closeFiles f n i ks) :
    ∃ k ∈ ks, rec.meta.partition = some k ∧ rec.content = f k ∧
      rec.meta.record_count = (f k).length ∧
      rec.meta.column_stats = statsOfRows n (f k) := by
  induction ks generalizing i with
  | nil => cases h
  | cons k ks ih =>
    rcases List.mem_cons.mp h with rfl | hmem
    · exact ⟨k, List.mem_cons_self k ks, rfl, rfl, rfl, rfl⟩
    · obtain ⟨k2, hk2, hrest⟩ := ih (i + 1) hmem
      exact ⟨k2, List.mem_cons_of_mem _ hk2, hrest⟩

theorem closeFiles_exists (f : Int → List Row) (n : Nat) (i : Nat)
    (ks : List Int) (k : Int) (h : k ∈ ks) :
    ∃ rec ∈ closeFiles f n i ks, rec.meta.partition = some k := by
  induction ks generalizing i with
  | nil => cases h
  | cons k2 ks ih =>
    rcases List.mem_cons.mp h with rfl | hmem
    · exact ⟨_, List.mem_cons_self _ _, rfl⟩
    · obtain ⟨rec, hrec, hpart⟩ := ih (i + 1) hmem
      exact ⟨rec, List.mem_cons_of_mem _ hrec, hpart⟩

/-! ## Claim theorems -/

theorem statsOfRows_getD (c j : Nat) (rows : List Row) (hj : j < c) :
    (statsOfRows c rows).getD j emptyStats = colStatsOf (colValues rows j) := by
  unfold statsOfRows
  rw [List.getD_eq_getElem?_getD, List.getElem?_map, List.getElem?_range hj]
  rfl

/-- Claim C1: for every sequence of schema-valid record batches written
through the writer followed by one successful close, the sum of the record
counts over all File-Metadata Records returned by close (records emitted by
roll-triggered closes included) equals the total number of rows passed to
write. -/
theorem C1_row_count_sum (c : Nat) (t : Option Nat) (bs : List RecordBatch)
    (w w1 : DataFileWriter) (recs : List DataFile)
    (h1 : writeAll (DataFileWriter.build c t) bs = .ok w)
    (h2 : w.close false = (.ok recs, w1)) :
    (recs.map (fun d => d.record_count)).sum =
      (bs.map (fun b => b.rows.length)).sum := by
  have hs := sum_close_records w w1 recs h2
  have ht := totalRows_writeAll bs _ w h1
  rw [hs, ht]
  simp [totalRows, DataFileWriter.build]

/-- Claim C2: for every column and every File-Metadata Record returned at
close, every non-null value written to that file lies between the record's
lower and upper bound for that column, and both bounds are attained by some
written value (exact, not approximate). -/
theorem C2_bounds_exact (c : Nat) (t : Option Nat) (bs : List RecordBatch)
    (w w1 : DataFileWriter) (recs : List DataFile)
    (h1 : writeAll (DataFileWriter.build c t) bs = .ok w)
    (h2 : w.close false = (.ok recs, w1)) :
    recs = w1.files.map (fun cf => cf.meta) ∧
    ∀ cf ∈ w1.files, ∀ j, j < c →
      (∀ v : Int, some v ∈ colValues cf.content j →
        ∃ lo hi,
          (cf.meta.column_stats.getD j emptyStats).lower = some lo ∧
          (cf.meta.column_stats.getD j emptyStats).upper = some hi ∧
          lo ≤ v ∧ v ≤ hi) ∧
      (∀ lo, (cf.meta.column_stats.getD j emptyStats).lower = some lo →
        some lo ∈ colValues cf.content j) ∧
      (∀ hi, (cf.meta.column_stats.getD j emptyStats).upper = some hi →
        some hi ∈ colValues cf.content j) := by
  obtain ⟨hcl, hw1, hrecs⟩ := close_records w w1 recs h2
  have hiw : Inv w := inv_writeAll bs _ w (inv_build c t) h1
  have hinv : Inv (rollFile w) := inv_rollFile w hiw
  have hnc : w.ncols = c := (writeAll_config bs _ w h1).1
  subst hw1
  constructor
  · exact hrecs
  · intro cf hcf j hj
    have hgood := hinv.1 cf hcf
    have hstats : cf.meta.column_stats.getD j emptyStats =
        colStatsOf (colValues cf.content j) := by
      rw [hgood.2.1]
      have hnc2 : (rollFile w).ncols = c := hnc
      rw [hnc2, statsOfRows_getD c j cf.content hj]
    refine ⟨?_, ?_, ?_⟩
    · intro v hv
      obtain ⟨lo, hlo, hle1⟩ := colStatsOf_lower_le _ v hv
      obtain ⟨hi, hhi, hle2⟩ := colStatsOf_le_upper _ v hv
      exact ⟨lo, hi, by rw [hstats]; exact hlo, by rw [hstats]; exact hhi,
        hle1, hle2⟩
    · intro lo hlo
      rw [hstats] at hlo
      exact colStatsOf_lower_mem _ lo hlo
    · intro hi hhi
      rw [hstats] at hhi
      exact colStatsOf_upper_mem _ hi hhi

/-- Claim C3: for every column and every File-Metadata Record returned at
close, the per-column null count equals the exact number of null entries for
that column across the rows persisted in that file. -/
theorem C3_null_counts (c : Nat) (t : Option Nat) (bs : List RecordBatch)
    (w w1 : DataFileWriter) (recs : List DataFile)
    (h1 : writeAll (DataFileWriter.build c t) bs = .ok w)
    (h2 : w.close false = (.ok recs, w1)) :
    recs = w1.files.map (fun cf => cf.meta) ∧
    ∀ cf ∈ w1.files, ∀ j, j < c →
      (cf.meta.column_stats.getD j emptyStats).nullCount =
        (colValues cf.content j).count none := by
  obtain ⟨hcl, hw1, hrecs⟩ := close_records w w1 recs h2
  have hiw : Inv w := inv_writeAll bs _ w (inv_build c t) h1
  have hinv : Inv (rollFile w) := inv_rollFile w hiw
  have hnc : w.ncols = c := (writeAll_config bs _ w h1).1
  subst hw1
  constructor
  · exact hrecs
  · intro cf hcf j hj
    have hgood := hinv.1 cf hcf
    have hstats : cf.meta.column_stats.getD j emptyStats =
        colStatsOf (colValues cf.content j) := by
      rw [hgood.2.1]
      have hnc2 : (rollFile w).ncols = c := hnc
      rw [hnc2, statsOfRows_getD c j cf.content hj]
    rw [hstats]
    exact colStatsOf_nullCount _

/-- Claim C4: once close has been called on a writer — whether that close
succeeded or failed — the writer is closed, and on any closed writer every
subsequent write or close fails with `AlreadyClosed` and leaves the state
unchanged; no subsequent operation silently succeeds. -/
theorem C4_use_after_close (w v : DataFileWriter) (f1 f2 : Bool)
    (b : RecordBatch) (hv : v.closed = true) :
    (w.close f1).2.closed = true ∧
    v.write b = .error .alreadyClosed ∧
    v.close f2 = (.error .alreadyClosed, v) := by
  refine ⟨?_, ?_, ?_⟩
  · unfold DataFileWriter.close
    by_cases hc : w.closed = true
    · rw [if_pos hc]; exact hc
    · rw [if_neg hc]
      cases f1 <;> rfl
  · unfold DataFileWriter.write
    rw [if_pos hv]
  · unfold DataFileWriter.close
    rw [if_pos hv]

/-- Claim C5: in a partitioned session, rows carrying different route keys
are never written into the same physical file — every returned file holds
exactly the rows routed to its own partition value — and every route key
that received at least one row yields a File-Metadata Record whose partition
value matches that key; partition values across records are distinct. -/
theorem C5_partition_routing (c : Nat) (bs : List (List (Int × Row)))
    (recs : List ClosedFile) (h : fanRun c bs = .ok recs) :
    (∀ rec ∈ recs, ∃ k, rec.meta.partition = some k ∧
      rec.content = (bs.flatten.filter (fun p => p.1 == k)).map Prod.snd) ∧
    (∀ k r, (k, r) ∈ bs.flatten → ∃ rec ∈ recs, rec.meta.partition = some k) ∧
    (recs.map (fun rec => rec.meta.partition)).Nodup := by
  unfold fanRun at h
  rw [fanWriteAll_eq bs _ rfl] at h
  have hclosed :
      ((bs.flatten.foldl writeRowP (FanoutWriter.build c))).closed = false :=
    (foldl_writeRowP_config _ _).2
  have hinv : FanInv bs.flatten (bs.flatten.foldl writeRowP (FanoutWriter.build c)) := by
    have := fanInv_foldl bs.flatten [] (FanoutWriter.build c) (fanInv_build c)
    simpa using this
  simp only [Except.bind] at h
  unfold FanoutWriter.close at h
  rw [if_neg (by rw [hclosed]; exact Bool.false_ne_true)] at h
  have hrecs : recs =
      closeFiles (bs.flatten.foldl writeRowP (FanoutWriter.build c)).openRows
        (bs.flatten.foldl writeRowP (FanoutWriter.build c)).ncols 0
        (bs.flatten.foldl writeRowP (FanoutWriter.build c)).keys := by
    cases h; rfl
  subst hrecs
  refine ⟨?_, ?_, ?_⟩
  · intro rec hrec
    obtain ⟨k, hk, hpart, hcontent, _⟩ := mem_closeFiles _ _ _ _ rec hrec
    refine ⟨k, hpart, ?_⟩
    rw [hcontent]
    exact hinv.2.1 k
  · intro k r hkr
    have hk : k ∈ (bs.flatten.foldl writeRowP (FanoutWriter.build c)).keys :=
      (hinv.2.2 k).mpr ⟨r, hkr⟩
    exact closeFiles_exists _ _ _ _ k hk
  · rw [closeFiles_partition_map]
    exact List.Nodup.map (fun a b hab => Option.some.inj hab) hinv.1

/-- Claim C6: a sequence of schema-compatible batches written by the
physical file writer into one file, then decoded from the file's finalized
bytes by the physical-format reader, reproduces exactly the rows that were
written. -/
theorem C6_roundtrip (c : Nat) (bs : List RecordBatch)
    (w : ParquetFileWriter) (bytes : List Nat) (cnt : Nat)
    (h1 : pWriteAll (ParquetFileWriter.build c) bs = .ok w)
    (h2 : w.close = .ok (bytes, cnt)) :
    decodeFile bytes = some (c, (bs.map (fun b => b.rows)).flatten) := by
  obtain ⟨hnc, hcl, hrows, hval⟩ := pWriteAll_ok bs _ w h1
  unfold ParquetFileWriter.close at h2
  rw [if_neg (by rw [hcl]; exact Bool.false_ne_true)] at h2
  have hb : bytes = encodeFile w.ncols w.rows := by cases h2; rfl
  have hnc2 : w.ncols = c := hnc
  have hrows2 : w.rows = (bs.map (fun b => b.rows)).flatten := by
    rw [hrows]; rfl
  rw [hb, hnc2, hrows2]
  apply decodeFile_encodeFile
  intro r hr
  rcases List.mem_flatten.mp hr with ⟨rows, hrowsmem, hrmem⟩
  rcases List.mem_map.mp hrowsmem with ⟨batch, hbmem, rfl⟩
  exact validBatch_rows c batch (hval batch hbmem) r hrmem

/-- Claim C7: with a row-count roll threshold of `n ≥ 1`, writing a single
batch of `2n` rows and closing returns at least two File-Metadata Records,
and no record's row count exceeds the threshold by more than one batch's
worth of rows. -/
theorem C7_roll_threshold (c n : Nat) (b : RecordBatch)
    (w w1 : DataFileWriter) (recs : List DataFile)
    (hn : 1 ≤ n) (hlen : b.rows.length = 2 * n)
    (h1 : (DataFileWriter.build c (some n)).write b = .ok w)
    (h2 : w.close false = (.ok recs, w1)) :
    2 ≤ recs.length ∧ ∀ rec ∈ recs, rec.record_count ≤ n + 2 * n := by
  have hri : RollInv n w :=
    rollInv_write n _ w b rfl hn (rollInv_build c (some n) n) h1
  have hbound := close_counts_le n w w1 recs hri h2
  have hsum : (recs.map (fun d => d.record_count)).sum = 2 * n := by
    have hs := sum_close_records w w1 recs h2
    have ht := totalRows_write _ w b h1
    rw [hs, ht, hlen]
    simp [totalRows, DataFileWriter.build]
  constructor
  · by_contra hlt
    push_neg at hlt
    have hle : (recs.map (fun d => d.record_count)).sum ≤ recs.length * n := by
      have := List.sum_le_card_nsmul (recs.map (fun d => d.record_count)) n
        (by
          intro x hx
          rcases List.mem_map.mp hx with ⟨rec, hrec, rfl⟩
          exact hbound rec hrec)
      simpa [List.length_map, smul_eq_mul] using this
    have hmul : recs.length * n ≤ 1 * n :=
      Nat.mul_le_mul_right n (by omega)
    omega
  · intro rec hrec
    exact le_trans (hbound rec hrec) (Nat.le_add_right n (2 * n))

/-- Claim C9: on a freshly built data file writer, writing a record batch
with zero rows and a matching schema succeeds, and a subsequent close
succeeds and returns the file-metadata collection. -/
theorem C9_empty_batch_ok (c : Nat) (t : Option Nat) :
    ∃ w recs w1,
      (DataFileWriter.build c t).write ⟨c, []⟩ = .ok w ∧
      w.close false = (.ok recs, w1) := by
  refine ⟨DataFileWriter.build c t,
    (rollFile (DataFileWriter.build c t)).files.map (fun cf => cf.meta),
    { rollFile (DataFileWriter.build c t) with closed := true }, ?_, ?_⟩
  · unfold DataFileWriter.write
    rw [if_neg (by exact Bool.false_ne_true)]
    rw [if_pos (by simp [validBatch, DataFileWriter.build])]
    rfl
  · unfold DataFileWriter.close
    rw [if_neg (by exact Bool.false_ne_true)]
    rfl

/-- Claim C10: every record produced by the parquet-backed data file writer
reports the parquet format consistently with the physical encoding at its
path: reading the stored bytes back and decoding them succeeds and yields
exactly the rows written to that file. -/
theorem C10_format_consistent (c : Nat) (t : Option Nat)
    (bs : List RecordBatch) (w w1 : DataFileWriter) (recs : List DataFile)
    (h1 : writeAll (DataFileWriter.build c t) bs = .ok w)
    (h2 : w.close false = (.ok recs, w1)) :
    recs = w1.files.map (fun cf => cf.meta) ∧
    ∀ cf ∈ w1.files,
      cf.meta.file_format = FileFormat.parquet ∧
      ∃ bytes, lookupStorage w1.storage cf.meta.file_path = some bytes ∧
        decodeFile bytes = some (c, cf.content) := by
  obtain ⟨hcl, hw1, hrecs⟩ := close_records w w1 recs h2
  have hiw : Inv w := inv_writeAll bs _ w (inv_build c t) h1
  have hinv : Inv (rollFile w) := inv_rollFile w hiw
  have hcw : ContentInv w := contentInv_writeAll bs _ w (contentInv_build c t) h1
  have hcr : ContentInv (rollFile w) := contentInv_rollFile w hcw
  have hnc : w.ncols = c := (writeAll_config bs _ w h1).1
  subst hw1
  constructor
  · exact hrecs
  · intro cf hcf
    have hgood := hinv.1 cf hcf
    refine ⟨hgood.2.2, encodeFile c cf.content, ?_, ?_⟩
    · have hls := lookupStorage_of_inv (rollFile w) hinv cf hcf
      have hnc2 : (rollFile w).ncols = c := hnc
      rw [hnc2] at hls
      exact hls
    · apply decodeFile_encodeFile
      intro r hr
      have hrl := hcr.1 cf hcf r hr
      have hnc2 : (rollFile w).ncols = c := hnc
      exact hrl.trans hnc2

/-- Claim C8: the per-batch statistics combination (running bounds and null
counts) is an associative and commutative merge, so aggregating the
per-batch partial statistics of a file's batches in any order yields the
same final bounds and null counts. -/
theorem C8_merge_monoid :
    (∀ s t, mergeStats s t = mergeStats t s) ∧
    (∀ s t u, mergeStats (mergeStats s t) u = mergeStats s (mergeStats t u)) ∧
    (∀ bs1 bs2 : List (List (Option Int)), bs1.Perm bs2 →
      (bs1.map colStatsOf).foldr mergeStats emptyStats =
        (bs2.map colStatsOf).foldr mergeStats emptyStats) := by
  refine ⟨mergeStats_comm, mergeStats_assoc, ?_⟩
  intro bs1 bs2 hp
  exact foldr_mergeStats_perm emptyStats _ _ (hp.map colStatsOf)

/-! ## Concrete runs used by the witnesses -/

/-- One-column, two-row example batch (value 3, then a null). -/
def bEx1 : RecordBatch := ⟨1, [[some 3], [none]]⟩

/-- Writer state after writing `bEx1` on a fresh unpartitioned writer. -/
def wEx1 : DataFileWriter := ⟨1, none, false, [[some 3], [none]], [], 0, []⟩

/-- Metadata record produced by closing `wEx1`. -/
def dfEx1 : DataFile := ⟨0, FileFormat.parquet, 2, none, [⟨some 3, some 3, 1⟩]⟩

/-- Writer state after closing `wEx1`. -/
def wEx1c : DataFileWriter :=
  ⟨1, none, true, [], [⟨dfEx1, [[some 3], [none]]⟩], 1, [(0, [1, 2, 1, 6, 0])]⟩

/-- An already-closed writer. -/
def vEx : DataFileWriter := ⟨1, none, true, [], [], 0, []⟩

/-- One-column batch of two rows, used against a roll threshold of one. -/
def bEx7 : RecordBatch := ⟨1, [[some 1], [some 2]]⟩

/-- First record of the threshold-one run. -/
def dfEx7a : DataFile := ⟨0, FileFormat.parquet, 1, none, [⟨some 1, some 1, 0⟩]⟩

/-- Second record of the threshold-one run. -/
def dfEx7b : DataFile := ⟨1, FileFormat.parquet, 1, none, [⟨some 2, some 2, 0⟩]⟩

/-- Writer state after writing `bEx7` with threshold one: one roll happened. -/
def wEx7 : DataFileWriter :=
  ⟨1, some 1, false, [[some 2]], [⟨dfEx7a, [[some 1]]⟩], 1, [(0, [1, 1, 1, 2])]⟩

/-- Writer state after closing `wEx7`. -/
def wEx7c : DataFileWriter :=
  ⟨1, some 1, true, [], [⟨dfEx7a, [[some 1]]⟩, ⟨dfEx7b, [[some 2]]⟩], 2,
    [(0, [1, 1, 1, 2]), (1, [1, 1, 1, 4])]⟩

/-- Two pre-routed batches over route keys 0 and 1. -/
def fanBsEx : List (List (Int × Row)) :=
  [[(0, [some 1]), (1, [some 2])], [(0, [none])]]

/-- Records of the partitioned run over `fanBsEx`. -/
def fanRecsEx : List ClosedFile :=
  [⟨⟨0, FileFormat.parquet, 2, some 0, [⟨some 1, some 1, 1⟩]⟩,
      [[some 1], [none]]⟩,
    ⟨⟨1, FileFormat.parquet, 1, some 1, [⟨some 2, some 2, 0⟩]⟩, [[some 2]]⟩]

/-- Two single-row batches for the physical round trip. -/
def pbsEx : List RecordBatch := [⟨1, [[some 3]]⟩, ⟨1, [[none]]⟩]

/-- Physical writer state after `pbsEx`. -/
def pwEx : ParquetFileWriter := ⟨1, [[some 3], [none]], false⟩

/-! ## Witnesses -/

/-- Witness for C1 at the concrete run over `bEx1`. -/
theorem C1_row_count_sum_witness :
    writeAll (DataFileWriter.build 1 none) [bEx1] = .ok wEx1 ∧
    wEx1.close false = (.ok [dfEx1], wEx1c) ∧
    ([dfEx1].map (fun d => d.record_count)).sum =
      ([bEx1].map (fun b => b.rows.length)).sum :=
  ⟨by rfl, by rfl,
    C1_row_count_sum 1 none [bEx1] wEx1 wEx1c [dfEx1] (by rfl) (by rfl)⟩

/-- Witness for C2 at the concrete run over `bEx1`. -/
theorem C2_bounds_exact_witness :
    writeAll (DataFileWriter.build 1 none) [bEx1] = .ok wEx1 ∧
    wEx1.close false = (.ok [dfEx1], wEx1c) ∧
    ([dfEx1] = wEx1c.files.map (fun cf => cf.meta) ∧
      ∀ cf ∈ wEx1c.files, ∀ j, j < 1 →
        (∀ v : Int, some v ∈ colValues cf.content j →
          ∃ lo hi,
            (cf.meta.column_stats.getD j emptyStats).lower = some lo ∧
            (cf.meta.column_stats.getD j emptyStats).upper = some hi ∧
            lo ≤ v ∧ v ≤ hi) ∧
        (∀ lo, (cf.meta.column_stats.getD j emptyStats).lower = some lo →
          some lo ∈ colValues cf.content j) ∧
        (∀ hi, (cf.meta.column_stats.getD j emptyStats).upper = some hi →
          some hi ∈ colValues cf.content j)) :=
  ⟨by rfl, by rfl,
    C2_bounds_exact 1 none [bEx1] wEx1 wEx1c [dfEx1] (by rfl) (by rfl)⟩

/-- Witness for C3 at the concrete run over `bEx1`. -/
theorem C3_null_counts_witness :
    writeAll (DataFileWriter.build 1 none) [bEx1] = .ok wEx1 ∧
    wEx1.close false = (.ok [dfEx1], wEx1c) ∧
    ([dfEx1] = wEx1c.files.map (fun cf => cf.meta) ∧
      ∀ cf ∈ wEx1c.files, ∀ j, j < 1 →
        (cf.meta.column_stats.getD j emptyStats).nullCount =
          (colValues cf.content j).count none) :=
  ⟨by rfl, by rfl,
    C3_null_counts 1 none [bEx1] wEx1 wEx1c [dfEx1] (by rfl) (by rfl)⟩

/-- Witness for C4 on a concrete closed writer. -/
theorem C4_use_after_close_witness :
    vEx.closed = true ∧
    (((DataFileWriter.build 1 none).close true).2.closed = true ∧
      vEx.write bEx1 = .error .alreadyClosed ∧
      vEx.close false = (.error .alreadyClosed, vEx)) :=
  ⟨by rfl,
    C4_use_after_close (DataFileWriter.build 1 none) vEx true false bEx1 (by rfl)⟩

/-- Witness for C5 at the concrete partitioned run over `fanBsEx`. -/
theorem C5_partition_routing_witness :
    fanRun 1 fanBsEx = .ok fanRecsEx ∧
    ((∀ rec ∈ fanRecsEx, ∃ k, rec.meta.partition = some k ∧
        rec.content =
          (fanBsEx.flatten.filter (fun p => p.1 == k)).map Prod.snd) ∧
      (∀ k r, (k, r) ∈ fanBsEx.flatten →
        ∃ rec ∈ fanRecsEx, rec.meta.partition = some k) ∧
      (fanRecsEx.map (fun rec => rec.meta.partition)).Nodup) :=
  ⟨by rfl, C5_partition_routing 1 fanBsEx fanRecsEx (by rfl)⟩

/-- Witness for C6 at the concrete physical run over `pbsEx`. -/
theorem C6_roundtrip_witness :
    pWriteAll (ParquetFileWriter.build 1) pbsEx = .ok pwEx ∧
    pwEx.close = .ok ([1, 2, 1, 6, 0], 2) ∧
    decodeFile [1, 2, 1, 6, 0] =
      some (1, (pbsEx.map (fun b => b.rows)).flatten) :=
  ⟨by rfl, by rfl,
    C6_roundtrip 1 pbsEx pwEx [1, 2, 1, 6, 0] 2 (by rfl) (by rfl)⟩

/-- Witness for C7 with threshold one and a two-row batch. -/
theorem C7_roll_threshold_witness :
    1 ≤ 1 ∧ bEx7.rows.length = 2 * 1 ∧
    (DataFileWriter.build 1 (some 1)).write bEx7 = .ok wEx7 ∧
    wEx7.close false = (.ok [dfEx7a, dfEx7b], wEx7c) ∧
    (2 ≤ ([dfEx7a, dfEx7b] : List DataFile).length ∧
      ∀ rec ∈ ([dfEx7a, dfEx7b] : List DataFile),
        rec.record_count ≤ 1 + 2 * 1) :=
  ⟨by decide, by rfl, by rfl, by rfl,
    C7_roll_threshold 1 1 bEx7 wEx7 wEx7c [dfEx7a, dfEx7b]
      (by decide) (by rfl) (by rfl) (by rfl)⟩

/-- Witness for C8 on two permuted batch lists. -/
theorem C8_merge_monoid_witness :
    (([[some 1], [none, some 5]] : List (List (Option Int))).map
        colStatsOf).foldr mergeStats emptyStats =
      (([[none, some 5], [some 1]] : List (List (Option Int))).map
        colStatsOf).foldr mergeStats emptyStats :=
  C8_merge_monoid.2.2 _ _ (List.Perm.swap _ _ _)

/-- Witness for C9 at a concrete schema width. -/
theorem C9_empty_batch_ok_witness :
    ∃ w recs w1,
      (DataFileWriter.build 2 none).write ⟨2, []⟩ = .ok w ∧
      w.close false = (.ok recs, w1) :=
  C9_empty_batch_ok 2 none

/-- Witness for C10 at the concrete run over `bEx1`. -/
theorem C10_format_consistent_witness :
    writeAll (DataFileWriter.build 1 none) [bEx1] = .ok wEx1 ∧
    wEx1.close false = (.ok [dfEx1], wEx1c) ∧
    ([dfEx1] = wEx1c.files.map (fun cf => cf.meta) ∧
      ∀ cf ∈ wEx1c.files,
        cf.meta.file_format = FileFormat.parquet ∧
        ∃ bytes, lookupStorage wEx1c.storage cf.meta.file_path = some bytes ∧
          decodeFile bytes = some (1, cf.content)) :=
  ⟨by rfl, by rfl,
    C10_format_consistent 1 none [bEx1] wEx1 wEx1c [dfEx1] (by rfl) (by rfl)⟩

end IcebergRust
